import Mathlib

/-! Shallow embedding of `src/internal/tsc_wrapped/file_cache.ts` (rules_typescript).

The TypeScript code keeps two JavaScript objects inside `FileCache`:
`fileCache` (input identity → `CacheEntry`) and `lastDigests` (input identity
→ digest string).  JavaScript objects with string keys iterate in insertion
order; `delete` removes a binding keeping the order of the rest; assigning to
an existing key replaces the value in place; assigning to a fresh key appends.
We model such an object as an association list `List (String × β)` in
insertion order (head = oldest), with the operations below mirroring those
object primitives.  The `debug` callback of `FileCache` is logging only and is
omitted; `readTimeMs` accumulates the elapsed milliseconds between two
adjacent `Date.now()` calls in `putCache`, which we model as zero elapsed
time.  `process.memoryUsage()` is nondeterministic, so the value the
`shouldFreeMemory` predicate returns at a given call is passed to `putCache`
as an explicit `pressure : Bool` argument.
-/

set_option autoImplicit false

universe u

variable {α : Type u}

/-- Models the JS object property read `m[k]`: the value at the first (only) binding of
key `k`, or `undefined` (`none`). -/
def lookupKey {β : Type u} : List (String × β) → String → Option β
  | [], _ => none
  | (a, b) :: rest, k => if a = k then some b else lookupKey rest k

/-- Models JS `delete m[k]`: remove the binding of key `k`, keeping the order of the
remaining bindings. -/
def eraseKey {β : Type u} (m : List (String × β)) (k : String) : List (String × β) :=
  m.filter (fun kv => kv.1 ≠ k)

/-- Models the JS assignment `m[k] = v`: replace the value in place when `k` is already
bound, otherwise append the new binding at the end. -/
def setKey {β : Type u} : List (String × β) → String → β → List (String × β)
  | [], k, v => [(k, v)]
  | (a, b) :: rest, k, v => if a = k then (k, v) :: rest else (a, b) :: setKey rest k v

/-- Model of `CacheEntry` from file_cache.ts: a digest string paired with the cached
artifact. -/
structure CacheEntry (α : Type u) : Type u where
  digest : String
  value : α
  deriving DecidableEq, Repr

/-- The `cacheStats` record of `FileCache`. -/
structure CacheStats : Type where
  hits : Nat
  reads : Nat
  readTimeMs : Nat
  deriving DecidableEq, Repr

/-- The state of a `FileCache`: the LRU map `fileCache` (insertion order
approximates recency, head = least recently used), the digest ledger
`lastDigests`, and the statistics counters. -/
structure FileCache (α : Type u) : Type u where
  fileCache : List (String × CacheEntry α)
  lastDigests : List (String × String)
  cacheStats : CacheStats
  deriving DecidableEq, Repr

/-- Well-formedness carried by a JS object: no two bindings share a key. -/
def FileCache.WF (c : FileCache α) : Prop :=
  (c.fileCache.map Prod.fst).Nodup

instance (c : FileCache α) : Decidable c.WF := by
  unfold FileCache.WF; infer_instance

/-- One step of the `updateCache` loop body for a key `kd.1` of the new digest
object: if a cache entry exists under that key and its digest differs from the
new digest `kd.2`, the entry is deleted. -/
def dropStale (fc : List (String × CacheEntry α)) (kd : String × String) :
    List (String × CacheEntry α) :=
  match lookupKey fc kd.1 with
  | some entry => if entry.digest ≠ kd.2 then eraseKey fc kd.1 else fc
  | none => fc

/-- Embeds `FileCache.updateCache`: replaces `lastDigests` wholesale with the new
digest object and, for each key of the new object, drops the cache entry whose
stored digest differs from the new digest. -/
def FileCache.updateCache (c : FileCache α) (digests : List (String × String)) :
    FileCache α :=
  { c with
      lastDigests := digests
      fileCache := digests.foldl dropStale c.fileCache }

/-- The error raised by `getLastDigest` (`MissingDigest` in the spec); it
carries the offending path in its message. -/
inductive CacheError : Type where
  | missingDigest (path : String)
  deriving DecidableEq, Repr

/-- Embeds `FileCache.getLastDigest`: looks the path up in `lastDigests` and throws
when the result is falsy — `undefined` (no binding) or the empty string. -/
def FileCache.getLastDigest (c : FileCache α) (filePath : String) :
    Except CacheError String :=
  match lookupKey c.lastDigests filePath with
  | none => .error (.missingDigest filePath)
  | some digest =>
      if digest = "" then .error (.missingDigest filePath) else .ok digest

/-- Embeds `FileCache.getCache`: always increments `reads`; on a hit additionally
increments `hits` and moves the entry to the end of the map (most recently
used) by deleting and re-inserting it, returning the cached value. -/
def FileCache.getCache (c : FileCache α) (filePath : String) :
    Option α × FileCache α :=
  let stats := { c.cacheStats with reads := c.cacheStats.reads + 1 }
  match lookupKey c.fileCache filePath with
  | none => (none, { c with cacheStats := stats })
  | some entry =>
      (some entry.value,
        { c with
            cacheStats := { stats with hits := stats.hits + 1 }
            fileCache := eraseKey c.fileCache filePath ++ [(filePath, entry)] })

/-- Models `Math.round(n / 2)` for a natural `n`: JavaScript rounds the half case
up, so this is `(n + 1) / 2` in natural division. -/
def halfRoundUp (n : Nat) : Nat := (n + 1) / 2

/-- Embeds `FileCache.putCache`: when the memory-pressure predicate returned true,
first deletes the first `Math.round(keys.length / 2)` keys of the map (the
least recently used half), then inserts the new entry under `filePath`. -/
def FileCache.putCache (c : FileCache α) (pressure : Bool) (filePath : String)
    (entry : CacheEntry α) : FileCache α :=
  let fc :=
    if pressure then
      let keys := c.fileCache.map Prod.fst
      let dropped := halfRoundUp keys.length
      (keys.take dropped).foldl eraseKey c.fileCache
    else c.fileCache
  { c with fileCache := setKey fc filePath entry }

/-- Embeds `FileCache.isKnownInput`, i.e. `!!this.lastDigests[filePath]` — true exactly
when the ledger binds the path to a truthy (nonempty) digest string. -/
def FileCache.isKnownInput (c : FileCache α) (filePath : String) : Bool :=
  match lookupKey c.lastDigests filePath with
  | none => false
  | some d => d ≠ ""

/-- Embeds `FileCache.inCache`, i.e. `!!this.getCache(filePath)` — performs a full
`getCache` (with all its side effects) and tests the truthiness of the
result.  `truthy` is JavaScript truthiness of a cached value (always `true`
for the object values the cache holds in practice). -/
def FileCache.inCache (truthy : α → Bool) (c : FileCache α) (filePath : String) :
    Bool × FileCache α :=
  let r := c.getCache filePath
  (match r.1 with
   | none => false
   | some v => truthy v, r.2)

/-- The value of `path.sep` on POSIX. -/
def pathSep : Char := '/'

/-- Models JS `str.split(path.sep)` for the one-character separator: splits at every
occurrence of the separator, keeping empty segments (as JS does). -/
def splitOnSep : List Char → List (List Char)
  | [] => [[]]
  | ch :: rest =>
      if ch = pathSep then [] :: splitOnSep rest
      else
        match splitOnSep rest with
        | [] => [[ch]]
        | seg :: segs => (ch :: seg) :: segs

/-- Embeds `isNonHermeticInput`: some segment of `filePath.split(path.sep)` equals
the reserved marker `node_modules`. -/
def isNonHermeticInput (filePath : String) : Bool :=
  (splitOnSep filePath.toList).contains "node_modules".toList

/-- Embeds `CachedFileLoader`: a `FileCache` plus the `allowNonHermeticReads` flag. -/
structure CachedFileLoader (α : Type u) : Type u where
  cache : FileCache α
  allowNonHermeticReads : Bool

/-- Embeds `CachedFileLoader.loadFile`.  Here `readFileSync` models the file system
contents (the claims settled here do not involve a failing read) and
`createSourceFile` the parser; `pressure` is the value `shouldFreeMemory`
returns at the inner `putCache` call. -/
def CachedFileLoader.loadFile (readFileSync : String → String)
    (createSourceFile : String → String → Nat → α) (pressure : Bool)
    (l : CachedFileLoader α) (fileName filePath : String) (langVer : Nat) :
    Except CacheError (α × CachedFileLoader α) :=
  let r := l.cache.getCache filePath
  match r.1 with
  | some sourceFile => .ok (sourceFile, { l with cache := r.2 })
  | none =>
      let sourceText := readFileSync filePath
      let sourceFile := createSourceFile fileName sourceText langVer
      if l.allowNonHermeticReads && !(r.2.isKnownInput filePath) &&
          isNonHermeticInput filePath then
        .ok (sourceFile, { l with cache := r.2 })
      else
        match r.2.getLastDigest filePath with
        | .error e => .error e
        | .ok digest =>
            .ok (sourceFile,
              { l with cache := r.2.putCache pressure filePath ⟨digest, sourceFile⟩ })

/-- A single Cache Store operation, for statements about operation
sequences. -/
inductive CacheOp (α : Type u) : Type u where
  | get (filePath : String)
  | put (pressure : Bool) (filePath : String) (entry : CacheEntry α)
  | update (digests : List (String × String))

/-- Apply one Cache Store operation to a cache state. -/
def applyOp (c : FileCache α) : CacheOp α → FileCache α
  | .get fp => (c.getCache fp).2
  | .put p fp e => c.putCache p fp e
  | .update ds => c.updateCache ds

/-! ### Concrete instances used by witnesses -/

/-- A concrete two-entry cache used by witnesses. -/
def cacheW : FileCache Nat :=
  { fileCache := [("a", ⟨"d1", 0⟩), ("b", ⟨"dB", 1⟩)]
    lastDigests := [("a", "d1"), ("b", "dB")]
    cacheStats := ⟨0, 0, 0⟩ }

/-- A concrete digest mapping that changes the digest of `a` and keeps `b`. -/
def digestsW : List (String × String) := [("a", "d2"), ("b", "dB")]

/-- A concrete digest mapping that does not mention `b`. -/
def digestsW2 : List (String × String) := [("a", "d2")]

/-- A concrete ten-entry cache, inserted in order `e1 … e10`. -/
def cache10 : FileCache Nat :=
  { fileCache :=
      [("e1", ⟨"g1", 1⟩), ("e2", ⟨"g2", 2⟩), ("e3", ⟨"g3", 3⟩),
       ("e4", ⟨"g4", 4⟩), ("e5", ⟨"g5", 5⟩), ("e6", ⟨"g6", 6⟩),
       ("e7", ⟨"g7", 7⟩), ("e8", ⟨"g8", 8⟩), ("e9", ⟨"g9", 9⟩),
       ("e10", ⟨"g10", 10⟩)]
    lastDigests := []
    cacheStats := ⟨0, 0, 0⟩ }

/-- A cache whose ledger records the empty string as the digest of `a`. -/
def cacheEmptyDigest : FileCache Nat :=
  { fileCache := []
    lastDigests := [("a", "")]
    cacheStats := ⟨0, 0, 0⟩ }

/-- A concrete loader with an empty cache and non-hermetic reads allowed. -/
def loaderEx : CachedFileLoader Nat :=
  { cache := { fileCache := [], lastDigests := [], cacheStats := ⟨0, 0, 0⟩ }
    allowNonHermeticReads := true }

/-! ### Lemmas about the association-list object model -/

theorem lookupKey_mem {β : Type u} {m : List (String × β)} {k : String} {v : β}
    (h : lookupKey m k = some v) : (k, v) ∈ m := by
  induction m with
  | nil => simp [lookupKey] at h
  | cons kv rest ih =>
      obtain ⟨a, b⟩ := kv
      by_cases hak : a = k
      · subst hak
        simp [lookupKey] at h
        simp [h]
      · simp [lookupKey, hak] at h
        exact List.mem_cons_of_mem _ (ih h)

theorem mem_lookupKey {β : Type u} {m : List (String × β)} {k : String} {v : β}
    (hnd : (m.map Prod.fst).Nodup) (h : (k, v) ∈ m) : lookupKey m k = some v := by
  induction m with
  | nil => simp at h
  | cons kv rest ih =>
      obtain ⟨a, b⟩ := kv
      simp only [List.map_cons, List.nodup_cons] at hnd
      rcases List.mem_cons.mp h with heq | hmem
      · obtain ⟨rfl, rfl⟩ := Prod.mk.injEq .. ▸ heq
        simp [lookupKey]
      · have hak : a ≠ k := by
          rintro rfl
          exact hnd.1 (List.mem_map.mpr ⟨(a, v), hmem, rfl⟩)
        simp [lookupKey, hak]
        exact ih hnd.2 hmem

theorem lookupKey_eq_none {β : Type u} {m : List (String × β)} {k : String} :
    lookupKey m k = none ↔ k ∉ m.map Prod.fst := by
  induction m with
  | nil => simp [lookupKey]
  | cons kv rest ih =>
      obtain ⟨a, b⟩ := kv
      by_cases hak : a = k
      · subst hak
        simp [lookupKey]
      · simp [lookupKey, hak, ih, Ne.symm hak]

theorem lookupKey_append_left {β : Type u} {m₁ m₂ : List (String × β)} {k : String}
    {v : β} (h : lookupKey m₁ k = some v) : lookupKey (m₁ ++ m₂) k = some v := by
  induction m₁ with
  | nil => simp [lookupKey] at h
  | cons kv rest ih =>
      obtain ⟨a, b⟩ := kv
      by_cases hak : a = k
      · subst hak
        simp [lookupKey] at h ⊢
        exact h
      · simp [lookupKey, hak] at h ⊢
        exact ih h

theorem lookupKey_append_right {β : Type u} {m₁ m₂ : List (String × β)} {k : String}
    (h : lookupKey m₁ k = none) : lookupKey (m₁ ++ m₂) k = lookupKey m₂ k := by
  induction m₁ with
  | nil => simp
  | cons kv rest ih =>
      obtain ⟨a, b⟩ := kv
      by_cases hak : a = k
      · simp [lookupKey, hak] at h
      · simp [lookupKey, hak] at h ⊢
        exact ih h

theorem mem_eraseKey {β : Type u} {m : List (String × β)} {k a : String} {b : β} :
    (a, b) ∈ eraseKey m k ↔ (a, b) ∈ m ∧ a ≠ k := by
  simp [eraseKey, List.mem_filter]

theorem eraseKey_of_not_mem {β : Type u} {m : List (String × β)} {k : String}
    (h : k ∉ m.map Prod.fst) : eraseKey m k = m := by
  apply List.filter_eq_self.mpr
  intro kv hkv
  have : kv.1 ≠ k := by
    rintro rfl
    exact h (List.mem_map.mpr ⟨kv, hkv, rfl⟩)
  simpa using this

theorem lookupKey_eraseKey_self {β : Type u} (m : List (String × β)) (k : String) :
    lookupKey (eraseKey m k) k = none := by
  apply lookupKey_eq_none.mpr
  intro hmem
  obtain ⟨kv, hkv, hfst⟩ := List.mem_map.mp hmem
  have := (List.mem_filter.mp hkv).2
  simp [hfst] at this

theorem lookupKey_eraseKey_ne {β : Type u} {m : List (String × β)} {k a : String}
    (hak : a ≠ k) : lookupKey (eraseKey m a) k = lookupKey m k := by
  induction m with
  | nil => simp [eraseKey]
  | cons kv rest ih =>
      obtain ⟨x, y⟩ := kv
      by_cases hx : x = a
      · subst hx
        have hxk : ¬(x = k) := fun h => hak (h ▸ rfl)
        simp [eraseKey, lookupKey, hxk] at ih ⊢
        exact ih
      · by_cases hxk : x = k
        · subst hxk
          simp [eraseKey, lookupKey, hx]
        · simp [eraseKey, lookupKey, hx, hxk] at ih ⊢
          exact ih

theorem keys_eraseKey_sublist {β : Type u} (m : List (String × β)) (k : String) :
    ((eraseKey m k).map Prod.fst).Sublist (m.map Prod.fst) :=
  (List.filter_sublist m).map Prod.fst

theorem nodup_eraseKey {β : Type u} {m : List (String × β)} {k : String}
    (hnd : (m.map Prod.fst).Nodup) : ((eraseKey m k).map Prod.fst).Nodup :=
  (keys_eraseKey_sublist m k).nodup hnd

theorem lookupKey_setKey_self {β : Type u} (m : List (String × β)) (k : String)
    (v : β) : lookupKey (setKey m k v) k = some v := by
  induction m with
  | nil => simp [setKey, lookupKey]
  | cons kv rest ih =>
      obtain ⟨a, b⟩ := kv
      by_cases hak : a = k
      · subst hak
        simp [setKey, lookupKey]
      · simp [setKey, lookupKey, hak]
        exact ih

theorem lookupKey_setKey_ne {β : Type u} {m : List (String × β)} {k a : String}
    (v : β) (hak : a ≠ k) : lookupKey (setKey m a v) k = lookupKey m k := by
  induction m with
  | nil => simp [setKey, lookupKey, hak]
  | cons kv rest ih =>
      obtain ⟨x, y⟩ := kv
      by_cases hx : x = a
      · subst hx
        have hxk : ¬(x = k) := fun h => hak (h ▸ rfl)
        simp [setKey, lookupKey, hxk]
      · by_cases hxk : x = k
        · subst hxk
          simp [setKey, lookupKey, hx]
        · simp [setKey, lookupKey, hx, hxk]
          exact ih

theorem setKey_of_not_mem {β : Type u} {m : List (String × β)} {k : String}
    (v : β) (h : k ∉ m.map Prod.fst) : setKey m k v = m ++ [(k, v)] := by
  induction m with
  | nil => simp [setKey]
  | cons kv rest ih =>
      obtain ⟨a, b⟩ := kv
      simp only [List.map_cons, List.mem_cons, not_or] at h
      have hak : ¬(a = k) := fun hh => h.1 hh.symm
      simp [setKey, hak]
      exact ih h.2

/-! ### Lemmas about `updateCache` -/

theorem mem_dropStale {fc : List (String × CacheEntry α)} {kd : String × String}
    {a : String} {b : CacheEntry α} (h : (a, b) ∈ dropStale fc kd) : (a, b) ∈ fc := by
  unfold dropStale at h
  rcases hl : lookupKey fc kd.1 with _ | e
  · rw [hl] at h
    exact h
  · rw [hl] at h
    by_cases hd : e.digest = kd.2
    · simp [hd] at h
      exact h
    · simp [hd] at h
      exact (mem_eraseKey.mp h).1

theorem mem_foldl_dropStale {ds : List (String × String)}
    {fc : List (String × CacheEntry α)} {a : String} {b : CacheEntry α}
    (h : (a, b) ∈ ds.foldl dropStale fc) : (a, b) ∈ fc := by
  induction ds generalizing fc with
  | nil => exact h
  | cons kd rest ih => exact mem_dropStale (ih h)

theorem nodup_dropStale {fc : List (String × CacheEntry α)} {kd : String × String}
    (hnd : (fc.map Prod.fst).Nodup) : ((dropStale fc kd).map Prod.fst).Nodup := by
  unfold dropStale
  rcases lookupKey fc kd.1 with _ | e
  · exact hnd
  · by_cases hd : e.digest = kd.2
    · simp [hd]
      exact hnd
    · simp [hd]
      exact nodup_eraseKey hnd

theorem lookupKey_dropStale_ne {fc : List (String × CacheEntry α)}
    {kd : String × String} {k : String} (hk : k ≠ kd.1) :
    lookupKey (dropStale fc kd) k = lookupKey fc k := by
  unfold dropStale
  rcases lookupKey fc kd.1 with _ | e
  · rfl
  · by_cases hd : e.digest = kd.2
    · simp [hd]
    · simp [hd]
      exact lookupKey_eraseKey_ne (Ne.symm hk)

theorem foldl_dropStale_no_stale {ds : List (String × String)}
    {fc : List (String × CacheEntry α)} {fp : String} {e : CacheEntry α}
    {d : String} (hndds : (ds.map Prod.fst).Nodup) (hndfc : (fc.map Prod.fst).Nodup)
    (hmem : (fp, e) ∈ ds.foldl dropStale fc) (hd : lookupKey ds fp = some d) :
    e.digest = d := by
  induction ds generalizing fc with
  | nil => simp [lookupKey] at hd
  | cons kd rest ih =>
      obtain ⟨k, dv⟩ := kd
      simp only [List.map_cons, List.nodup_cons] at hndds
      by_cases hk : k = fp
      · subst hk
        simp [lookupKey] at hd
        subst hd
        have hmem' : (k, e) ∈ dropStale fc (k, dv) :=
          mem_foldl_dropStale (List.foldl_cons .. ▸ hmem)
        unfold dropStale at hmem'
        rcases hl : lookupKey fc k with _ | e0
        · rw [hl] at hmem'
          have := mem_lookupKey hndfc hmem'
          rw [hl] at this
          exact absurd this (by simp)
        · rw [hl] at hmem'
          by_cases hdig : e0.digest = dv
          · simp [hdig] at hmem'
            have := mem_lookupKey hndfc hmem'
            rw [hl] at this
            have he : e = e0 := by injection this with h; exact h.symm
            rw [he, hdig]
          · simp [hdig] at hmem'
            exact absurd rfl (mem_eraseKey.mp hmem').2
      · have hd' : lookupKey rest fp = some d := by
          simpa [lookupKey, hk] using hd
        exact ih hndds.2 (nodup_dropStale hndfc)
          (List.foldl_cons .. ▸ hmem) hd'

theorem lookupKey_foldl_dropStale_not_mem {ds : List (String × String)}
    {fc : List (String × CacheEntry α)} {fp : String}
    (hfp : fp ∉ ds.map Prod.fst) :
    lookupKey (ds.foldl dropStale fc) fp = lookupKey fc fp := by
  induction ds generalizing fc with
  | nil => rfl
  | cons kd rest ih =>
      simp only [List.map_cons, List.mem_cons, not_or] at hfp
      rw [List.foldl_cons, ih hfp.2, lookupKey_dropStale_ne hfp.1]

/-! ### Claim theorems -/

/-- C1: after every `updateCache` call, every entry still present in the
Cache Store whose identity appears in the new digest mapping has a digest
equal to the new mapping's value for that identity; in particular any stored
entry whose digest differs from the new mapping's digest is already gone in
the state `updateCache` returns (eager eviction, not lazy on a later read). -/
theorem updateCache_no_stale_digests (c : FileCache α) (ds : List (String × String))
    (hwf : c.WF) (hnd : (ds.map Prod.fst).Nodup) (fp : String) (e : CacheEntry α)
    (d : String) (hmem : (fp, e) ∈ (c.updateCache ds).fileCache)
    (hd : lookupKey ds fp = some d) : e.digest = d :=
  foldl_dropStale_no_stale hnd hwf hmem hd

theorem updateCache_no_stale_digests_witness :
    cacheW.WF ∧ ((digestsW.map Prod.fst).Nodup ∧
      ("b", (⟨"dB", 1⟩ : CacheEntry Nat)) ∈ (cacheW.updateCache digestsW).fileCache ∧
      lookupKey digestsW "b" = some "dB") ∧
    (⟨"dB", 1⟩ : CacheEntry Nat).digest = "dB" :=
  ⟨by decide, ⟨by decide, by decide, by decide⟩,
    updateCache_no_stale_digests cacheW digestsW (by decide) (by decide) "b"
      ⟨"dB", 1⟩ "dB" (by decide) (by decide)⟩

/-- C9: `updateCache` leaves every cache entry whose identity does not appear
in the new digest mapping untouched: the identity is bound to the same entry
(same digest, same value) after the update as before. -/
theorem updateCache_untouched_absent_keys (c : FileCache α)
    (ds : List (String × String)) (fp : String) (hfp : fp ∉ ds.map Prod.fst) :
    lookupKey (c.updateCache ds).fileCache fp = lookupKey c.fileCache fp :=
  lookupKey_foldl_dropStale_not_mem hfp

theorem updateCache_untouched_absent_keys_witness :
    "b" ∉ digestsW2.map Prod.fst ∧
    lookupKey (cacheW.updateCache digestsW2).fileCache "b" =
      lookupKey cacheW.fileCache "b" :=
  ⟨by decide, updateCache_untouched_absent_keys cacheW digestsW2 "b" (by decide)⟩

/-! ### Eviction under memory pressure -/

theorem eraseKey_cons_self {β : Type u} {a : String} {b : β}
    {rest : List (String × β)} (hnotin : a ∉ rest.map Prod.fst) :
    eraseKey ((a, b) :: rest) a = rest := by
  have h1 : eraseKey ((a, b) :: rest) a = eraseKey rest a := by
    simp [eraseKey]
  rw [h1, eraseKey_of_not_mem hnotin]

theorem foldl_eraseKey_take {β : Type u} {m : List (String × β)}
    (hnd : (m.map Prod.fst).Nodup) (d : Nat) :
    ((m.map Prod.fst).take d).foldl eraseKey m = m.drop d := by
  induction m generalizing d with
  | nil => simp
  | cons kv rest ih =>
      obtain ⟨a, b⟩ := kv
      cases d with
      | zero => simp
      | succ d' =>
          simp only [List.map_cons, List.nodup_cons] at hnd
          rw [List.map_cons, List.take_succ_cons, List.foldl_cons,
            eraseKey_cons_self hnd.1, List.drop_succ_cons]
          exact ih hnd.2 d'

/-- C2: when the memory-pressure predicate returns true, `putCache` deletes
the first `Math.round(N / 2)` entries of the map in recency order (the least
recently used prefix) and appends the new entry, so the surviving pre-existing
entries are exactly the most recently used suffix and number at most
`ceil(N / 2)`. -/
theorem putCache_pressure_evicts (c : FileCache α) (fp : String) (e : CacheEntry α)
    (hwf : c.WF) (hfp : fp ∉ c.fileCache.map Prod.fst) :
    (c.putCache true fp e).fileCache
      = c.fileCache.drop (halfRoundUp c.fileCache.length) ++ [(fp, e)] ∧
    ((c.putCache true fp e).fileCache.filter (fun kv => kv.1 ≠ fp)).length
      ≤ (c.fileCache.length + 1) / 2 := by
  have hlen : (c.fileCache.map Prod.fst).length = c.fileCache.length :=
    List.length_map _ _
  have hchar : (c.putCache true fp e).fileCache
      = c.fileCache.drop (halfRoundUp c.fileCache.length) ++ [(fp, e)] := by
    show setKey (((c.fileCache.map Prod.fst).take
        (halfRoundUp (c.fileCache.map Prod.fst).length)).foldl eraseKey c.fileCache)
        fp e = _
    rw [hlen, foldl_eraseKey_take hwf]
    apply setKey_of_not_mem
    intro hmem
    obtain ⟨kv, hkv, hfst⟩ := List.mem_map.mp hmem
    exact hfp (List.mem_map.mpr ⟨kv, List.mem_of_mem_drop hkv, hfst⟩)
  refine ⟨hchar, ?_⟩
  rw [hchar, List.filter_append]
  have hfilter : (c.fileCache.drop (halfRoundUp c.fileCache.length)).filter
      (fun kv => kv.1 ≠ fp)
      = c.fileCache.drop (halfRoundUp c.fileCache.length) := by
    apply List.filter_eq_self.mpr
    intro kv hkv
    have : kv.1 ≠ fp := by
      rintro rfl
      exact hfp (List.mem_map.mpr ⟨kv, List.mem_of_mem_drop hkv, rfl⟩)
    simpa using this
  rw [hfilter]
  have hnil : ([(fp, e)].filter (fun kv => kv.1 ≠ fp)) = [] := by simp
  rw [hnil, List.append_nil, List.length_drop]
  unfold halfRoundUp
  omega

theorem putCache_pressure_evicts_witness :
    cache10.WF ∧ "e11" ∉ cache10.fileCache.map Prod.fst ∧
    (cache10.putCache true "e11" ⟨"g11", 11⟩).fileCache
      = cache10.fileCache.drop 5 ++ [("e11", ⟨"g11", 11⟩)] ∧
    (cache10.putCache true "e11" ⟨"g11", 11⟩).fileCache
      = [("e6", ⟨"g6", 6⟩), ("e7", ⟨"g7", 7⟩), ("e8", ⟨"g8", 8⟩),
         ("e9", ⟨"g9", 9⟩), ("e10", ⟨"g10", 10⟩), ("e11", ⟨"g11", 11⟩)] :=
  ⟨by decide, by decide,
    (putCache_pressure_evicts cache10 "e11" ⟨"g11", 11⟩ (by decide) (by decide)).1,
    by decide⟩

/-- C6: `putCache(id, entry)` with the memory-pressure predicate returning
false, immediately followed by `getCache(id)` with no intervening operation,
returns `entry.value`. -/
theorem putCache_getCache_roundtrip (c : FileCache α) (fp : String)
    (e : CacheEntry α) : ((c.putCache false fp e).getCache fp).1 = some e.value := by
  simp [FileCache.getCache, FileCache.putCache, lookupKey_setKey_self]

/-- C7: `getCache` on an identity with no entry returns absent, increments
the read counter, leaves the hit counter unchanged and leaves the cache
mapping (contents and order) unmodified; on a hit it increments both the read
and the hit counter and moves the entry to the most-recently-used (last)
position. -/
theorem getCache_miss_hit_spec (c : FileCache α) (fp : String) :
    (lookupKey c.fileCache fp = none →
      (c.getCache fp).1 = none ∧
      (c.getCache fp).2.cacheStats.reads = c.cacheStats.reads + 1 ∧
      (c.getCache fp).2.cacheStats.hits = c.cacheStats.hits ∧
      (c.getCache fp).2.fileCache = c.fileCache) ∧
    (∀ e, lookupKey c.fileCache fp = some e →
      (c.getCache fp).1 = some e.value ∧
      (c.getCache fp).2.cacheStats.reads = c.cacheStats.reads + 1 ∧
      (c.getCache fp).2.cacheStats.hits = c.cacheStats.hits + 1 ∧
      (c.getCache fp).2.fileCache = eraseKey c.fileCache fp ++ [(fp, e)]) := by
  constructor
  · intro h
    simp [FileCache.getCache, h]
  · intro e h
    simp [FileCache.getCache, h]

theorem getCache_miss_hit_spec_witness :
    ((cacheW.getCache "zz").1 = none ∧
      (cacheW.getCache "zz").2.fileCache = cacheW.fileCache) ∧
    ((cacheW.getCache "a").1 = some 0 ∧
      (cacheW.getCache "a").2.cacheStats.hits = cacheW.cacheStats.hits + 1) := by
  have hm := (getCache_miss_hit_spec cacheW "zz").1 (by decide)
  have hh := (getCache_miss_hit_spec cacheW "a").2 ⟨"d1", 0⟩ (by decide)
  exact ⟨⟨hm.1, hm.2.2.2⟩, ⟨hh.1, hh.2.2.1⟩⟩

/-- C10: `inCache` is not side-effect-free — it always increments the read
counter; when the identity is present it additionally increments the hit
counter and promotes the entry to the most-recently-used position; and it
returns true exactly when the identity is present with a truthy value. -/
theorem inCache_effects (truthy : α → Bool) (c : FileCache α) (fp : String) :
    (FileCache.inCache truthy c fp).2.cacheStats.reads = c.cacheStats.reads + 1 ∧
    ((FileCache.inCache truthy c fp).1 = true ↔
      ∃ e, lookupKey c.fileCache fp = some e ∧ truthy e.value = true) ∧
    (∀ e, lookupKey c.fileCache fp = some e →
      (FileCache.inCache truthy c fp).2.cacheStats.hits = c.cacheStats.hits + 1 ∧
      (FileCache.inCache truthy c fp).2.fileCache
        = eraseKey c.fileCache fp ++ [(fp, e)]) ∧
    (lookupKey c.fileCache fp = none →
      (FileCache.inCache truthy c fp).2.cacheStats.hits = c.cacheStats.hits) := by
  rcases h : lookupKey c.fileCache fp with _ | e
  · refine ⟨?_, ?_, ?_, ?_⟩ <;> simp [FileCache.inCache, FileCache.getCache, h]
  · refine ⟨?_, ?_, ?_, ?_⟩ <;> simp [FileCache.inCache, FileCache.getCache, h]

theorem inCache_effects_witness :
    (FileCache.inCache (fun _ => true) cacheW "a").2.cacheStats.reads
        = cacheW.cacheStats.reads + 1 ∧
    (FileCache.inCache (fun _ => true) cacheW "a").2.cacheStats.hits
        = cacheW.cacheStats.hits + 1 := by
  have h := inCache_effects (fun _ => true) cacheW "a"
  exact ⟨h.1, (h.2.2.1 ⟨"d1", 0⟩ (by decide)).1⟩

/-- C4 counterexample: the ledger records a digest (the empty string) for
`a`, yet `isKnownInput "a"` is false, because the code tests JS truthiness of
the digest and the empty string is falsy. -/
theorem isKnownInput_empty_digest_cex :
    lookupKey cacheEmptyDigest.lastDigests "a" = some "" ∧
    cacheEmptyDigest.isKnownInput "a" = false := by decide

/-- C4 (amended): `isKnownInput(id)` is true iff the Digest Ledger currently
records a nonempty digest for `id` (an empty-string digest is treated as
absent), regardless of the Cache Store's contents. -/
theorem isKnownInput_iff (c : FileCache α) (fp : String) :
    (c.isKnownInput fp = true ↔
      ∃ d, lookupKey c.lastDigests fp = some d ∧ d ≠ "") ∧
    (∀ fc', ({ c with fileCache := fc' } : FileCache α).isKnownInput fp
        = c.isKnownInput fp) := by
  constructor
  · unfold FileCache.isKnownInput
    rcases h : lookupKey c.lastDigests fp with _ | d <;> simp
  · intro fc'
    rfl

/-- C5 counterexample: the ledger records a digest (the empty string) for
`a`, yet `getLastDigest "a"` fails with `MissingDigest`, because the code
tests JS truthiness of the digest and the empty string is falsy. -/
theorem getLastDigest_empty_digest_cex :
    lookupKey cacheEmptyDigest.lastDigests "a" = some "" ∧
    FileCache.getLastDigest cacheEmptyDigest "a"
      = .error (.missingDigest "a") := by
  exact ⟨rfl, rfl⟩

/-- C5 (amended): `getLastDigest` returns the digest on record when a
nonempty one is recorded, and fails with a `MissingDigest` error carrying the
offending path exactly when no digest is recorded or the recorded digest is
the empty string; the error is raised, never silently defaulted. -/
theorem getLastDigest_spec (c : FileCache α) (fp : String) :
    (∀ d, lookupKey c.lastDigests fp = some d → d ≠ "" →
      c.getLastDigest fp = .ok d) ∧
    ((lookupKey c.lastDigests fp = none ∨ lookupKey c.lastDigests fp = some "") →
      c.getLastDigest fp = .error (.missingDigest fp)) := by
  constructor
  · intro d hd hne
    simp [FileCache.getLastDigest, hd, hne]
  · rintro (h | h) <;> simp [FileCache.getLastDigest, h]

theorem getLastDigest_spec_witness :
    FileCache.getLastDigest cacheW "a" = .ok "d1" ∧
    FileCache.getLastDigest cacheEmptyDigest "b"
      = .error (.missingDigest "b") :=
  ⟨(getLastDigest_spec cacheW "a").1 "d1" (by decide) (by decide),
    (getLastDigest_spec cacheEmptyDigest "b").2 (Or.inl (by decide))⟩

theorem mem_foldl_eraseKey {β : Type u} {ks : List String} {m : List (String × β)}
    {a : String} {b : β} (h : (a, b) ∈ ks.foldl eraseKey m) : (a, b) ∈ m := by
  induction ks generalizing m with
  | nil => exact h
  | cons k rest ih => exact (mem_eraseKey.mp (ih (List.foldl_cons .. ▸ h))).1

/-- C3 counterexample: a single `putCache` step takes identity `a` directly
from present-with-digest `d1` to present-with-digest `d2` without passing
through an absent state, because `putCache` overwrites an existing binding in
place and never compares digests. -/
theorem put_direct_digest_change_cex :
    lookupKey cacheW.fileCache "a" = some ⟨"d1", 0⟩ ∧
    lookupKey (applyOp cacheW (CacheOp.put false "a" ⟨"d2", 7⟩)).fileCache "a"
      = some ⟨"d2", 7⟩ ∧
    (⟨"d1", 0⟩ : CacheEntry Nat).digest ≠ (⟨"d2", 7⟩ : CacheEntry Nat).digest := by
  decide

/-- C3 (amended): no single `getCache` or `updateCache` step, and no
`putCache` step for a different identity, ever takes an entry for an identity
directly from a present state with one digest to a present state with another
digest; only a `putCache` addressed at that same identity can replace the
digest of a present entry directly. -/
theorem step_digest_stable (c : FileCache α) (op : CacheOp α) (fp : String)
    (e1 e2 : CacheEntry α) (hwf : c.WF)
    (hop : ∀ p e, op ≠ CacheOp.put p fp e)
    (h1 : lookupKey c.fileCache fp = some e1)
    (h2 : lookupKey (applyOp c op).fileCache fp = some e2) :
    e2.digest = e1.digest := by
  have he : e2 = e1 := by
    cases op with
    | get fp' =>
        simp only [applyOp] at h2
        rcases hl : lookupKey c.fileCache fp' with _ | entry
        · simp only [FileCache.getCache, hl] at h2
          rw [h1] at h2
          exact (Option.some.inj h2).symm
        · simp only [FileCache.getCache, hl] at h2
          by_cases hfp : fp' = fp
          · subst hfp
            have hent : entry = e1 := by
              rw [hl] at h1
              exact Option.some.inj h1
            subst hent
            rw [lookupKey_append_right (lookupKey_eraseKey_self ..)] at h2
            simp [lookupKey] at h2
            exact h2.symm
          · have hlk : lookupKey
                (eraseKey c.fileCache fp' ++ [(fp', entry)]) fp = some e1 := by
              apply lookupKey_append_left
              rw [lookupKey_eraseKey_ne hfp]
              exact h1
            rw [hlk] at h2
            exact (Option.some.inj h2).symm
    | put p k e =>
        have hk : k ≠ fp := by
          rintro rfl
          exact hop p e rfl
        simp only [applyOp, FileCache.putCache] at h2
        cases p with
        | false =>
            rw [if_neg (by simp)] at h2
            rw [lookupKey_setKey_ne e hk, h1] at h2
            exact (Option.some.inj h2).symm
        | true =>
            rw [if_pos rfl] at h2
            rw [lookupKey_setKey_ne e hk] at h2
            have hmem := mem_foldl_eraseKey (lookupKey_mem h2)
            have := mem_lookupKey hwf hmem
            rw [h1] at this
            exact (Option.some.inj this).symm
    | update ds =>
        simp only [applyOp, FileCache.updateCache] at h2
        have hmem := mem_foldl_dropStale (lookupKey_mem h2)
        have := mem_lookupKey hwf hmem
        rw [h1] at this
        exact (Option.some.inj this).symm
  rw [he]

theorem step_digest_stable_witness :
    (lookupKey cacheW.fileCache "b" = some ⟨"dB", 1⟩ ∧
      lookupKey (applyOp cacheW (CacheOp.update digestsW2)).fileCache "b"
        = some ⟨"dB", 1⟩) ∧
    (⟨"dB", 1⟩ : CacheEntry Nat).digest = (⟨"dB", 1⟩ : CacheEntry Nat).digest := by
  refine ⟨⟨by decide, by decide⟩, ?_⟩
  exact step_digest_stable cacheW (CacheOp.update digestsW2) "b" ⟨"dB", 1⟩
    ⟨"dB", 1⟩ (by decide) (fun p e h => CacheOp.noConfusion h) (by decide)
    (by decide)

/-- C8: with non-hermetic reads enabled, on a cache miss for a path that is
not a known input and that the Hermeticity Classifier flags as non-hermetic,
`loadFile` returns the freshly parsed artifact without inserting it into the
Cache Store: the cache contents are unchanged and a subsequent `getCache` on
the path still misses. -/
theorem loadFile_non_hermetic_not_cached (readFileSync : String → String)
    (createSourceFile : String → String → Nat → α) (pressure : Bool)
    (l : CachedFileLoader α) (fileName filePath : String) (langVer : Nat)
    (hmiss : lookupKey l.cache.fileCache filePath = none)
    (hallow : l.allowNonHermeticReads = true)
    (hunknown : l.cache.isKnownInput filePath = false)
    (hnh : isNonHermeticInput filePath = true) :
    ∃ l' : CachedFileLoader α,
      l.loadFile readFileSync createSourceFile pressure fileName filePath langVer
        = .ok (createSourceFile fileName (readFileSync filePath) langVer, l') ∧
      l'.cache.fileCache = l.cache.fileCache ∧
      (l'.cache.getCache filePath).1 = none := by
  have hunknown' : FileCache.isKnownInput
      { l.cache with cacheStats :=
          { l.cache.cacheStats with reads := l.cache.cacheStats.reads + 1 } }
      filePath = false := hunknown
  refine ⟨{ l with cache := (l.cache.getCache filePath).2 }, ?_, ?_, ?_⟩
  · simp only [CachedFileLoader.loadFile, FileCache.getCache, hmiss, hallow,
      hunknown', hnh]
    simp
  · simp [FileCache.getCache, hmiss]
  · simp [FileCache.getCache, hmiss]

theorem loadFile_non_hermetic_not_cached_witness :
    ∃ l' : CachedFileLoader Nat,
      CachedFileLoader.loadFile (fun _ => "txt") (fun _ _ _ => 42) false loaderEx
          "x.ts" "node_modules/x.ts" 2
        = .ok (42, l') ∧
      l'.cache.fileCache = loaderEx.cache.fileCache ∧
      (l'.cache.getCache "node_modules/x.ts").1 = none :=
  loadFile_non_hermetic_not_cached (fun _ => "txt") (fun _ _ _ => 42) false
    loaderEx "x.ts" "node_modules/x.ts" 2 (by decide) (by decide) (by decide)
    (by decide)
